import Mathlib

/-!
Verification of the QAOA MaxCut teaching material
(`Course Material/Introduction to Quantum Computing and FiQCI/Exercises/05_QAOA.ipynb`).

The Python code is shallowly embedded:
* bit-strings (Python strings of '0'/'1') become `List Bool`;
* the graph dict `{'nodes': ..., 'edges': ...}` becomes the `Graph` structure;
* the qiskit counts dict becomes an association list `List (List Bool × Nat)`
  (dict iteration order is the list order);
* Python `int` arithmetic is `Int`, true division is `ℚ` division, and a
  `ZeroDivisionError` raised by `cost/total_shots` is modelled by `Option.none`;
* Python floats (the gate angles) are modelled by `ℚ`: none of the embedded
  code performs any arithmetic on them other than `0.5 * gamma`, which is exact;
* the qiskit `QuantumCircuit` built by `Build_QAOA` becomes a `List Gate`,
  one element per gate appended, in append order;
* list indexing `bitstring[i]` is modelled by `List.getD`; the theorems that
  depend on indexing carry the hypothesis that every edge endpoint is in
  range, which is exactly the regime where Python does not raise `IndexError`.
-/

/-- The graph dict `{'nodes': nodes, 'edges': edges}` from the notebook:
a list of integer vertex identifiers and a list of undirected edges given
as pairs of vertex identifiers. -/
structure Graph where
  nodes : List Nat
  edges : List (Nat × Nat)
deriving Repr, DecidableEq

/-- The measurement-outcome distribution returned by
`backend.run(...).result().get_counts()`: a mapping from observed bit-string
to occurrence count, embedded as an association list. -/
abbrev Counts : Type := List (List Bool × Nat)

/-- Python string slicing `bitstring[::-1]`, as used both inside
`maxcut_cost` and during solution extraction
(`most_probable_solution = most_probable_solution[::-1]`). -/
def reverse_bits (s : List Bool) : List Bool := s.reverse

/-- One iteration of the edge loop of `maxcut_cost`: contribute `-1` when the
two endpoint bits differ, `0` otherwise.  Out-of-range lookups (which would
raise `IndexError` in Python) read the default `false`. -/
def cutTerm (bits : List Bool) (e : Nat × Nat) : Int :=
  if bits.getD e.1 false ≠ bits.getD e.2 false then -1 else 0

/-- `maxcut_cost(bitstring, graph)` from the notebook: reverse the bit-string
(qiskit reports states in reversed order), then for every edge `(i, j)` add
`-1` if `bitstring[i] != bitstring[j]`. -/
def maxcut_cost (bitstring : List Bool) (graph : Graph) : Int :=
  let bits := reverse_bits bitstring
  graph.edges.foldl (fun value e => value + cutTerm bits e) 0

/-- Number of cut edges of a bit assignment `bits` (no reversal applied):
edges whose endpoint bits differ.  This is the specification-side notion
used to state what `maxcut_cost` computes. -/
def cut_edges (bits : List Bool) (graph : Graph) : Nat :=
  graph.edges.countP (fun e => bits.getD e.1 false ≠ bits.getD e.2 false)

/-- `get_expval(counts, graph)` from the notebook: accumulate
`maxcut_cost(bitstring, graph) * count` and the total shot count over the
counts dict, then divide.  `cost/total_shots` with `total_shots = 0` raises
`ZeroDivisionError` in Python; the embedding returns `none` there. -/
def get_expval (counts : Counts) (graph : Graph) : Option ℚ :=
  let cost : Int := counts.foldl (fun c p => c + maxcut_cost p.1 graph * (p.2 : Int)) 0
  let total_shots : Nat := counts.foldl (fun t p => t + p.2) 0
  if total_shots = 0 then none
  else some ((cost : ℚ) / (total_shots : ℚ))

-- Fold/sum normal forms used throughout the proofs.

theorem foldl_add_eq_sum_map {α M : Type} [AddCommMonoid M] (f : α → M) (l : List α) :
    l.foldl (fun acc x => acc + f x) 0 = (l.map f).sum := by
  rw [List.sum_eq_foldl, List.foldl_map]

theorem maxcut_cost_eq_sum (bitstring : List Bool) (graph : Graph) :
    maxcut_cost bitstring graph
      = (graph.edges.map (cutTerm (reverse_bits bitstring))).sum := by
  unfold maxcut_cost
  rw [← foldl_add_eq_sum_map]

/-- The total shot count accumulated by `get_expval`. -/
def total_shots (counts : Counts) : Nat := (counts.map Prod.snd).sum

/-- The weighted cost sum accumulated by `get_expval`. -/
def cost_sum (counts : Counts) (graph : Graph) : Int :=
  (counts.map (fun p => maxcut_cost p.1 graph * (p.2 : Int))).sum

theorem get_expval_eq (counts : Counts) (graph : Graph) :
    get_expval counts graph
      = (if total_shots counts = 0 then none
         else some ((cost_sum counts graph : ℚ) / (total_shots counts : ℚ))) := by
  unfold get_expval total_shots cost_sum
  rw [← foldl_add_eq_sum_map (fun p : List Bool × Nat => maxcut_cost p.1 graph * (p.2 : Int)),
    ← foldl_add_eq_sum_map (fun p : List Bool × Nat => p.2)]

/-!  Circuit embedding.  `Build_QAOA` mutates a qiskit `QuantumCircuit`
only by appending gates, so the circuit is embedded as the list of the
appended gates, in append order.  Gate angles are `ℚ` (the only arithmetic
the code does on an angle is `0.5*gammas[i]`, which is exact). -/

/-- One appended operation of the qiskit circuit built by `Build_QAOA`. -/
inductive Gate where
  | h (q : Nat)
  | barrier
  | cx (control target : Nat)
  | rz (angle : ℚ) (q : Nat)
  | rx (angle : ℚ) (q : Nat)
  | measure (q c : Nat)
deriving Repr, DecidableEq

/-- The body of the edge loop of `Build_QAOA` for one edge `ab` at layer
angle `gamma`: `qc.barrier(); qc.cx(ab[0], ab[1]); qc.rz(0.5*gammas[i], ab[1]);
qc.cx(ab[0], ab[1])`. -/
def cost_block (gamma : ℚ) (ab : Nat × Nat) : List Gate :=
  [Gate.barrier, Gate.cx ab.1 ab.2, Gate.rz (1/2 * gamma) ab.2, Gate.cx ab.1 ab.2]

/-- One layer of the ansatz: the cost blocks for every edge, then the
barrier and the mixer rotation `qc.rx(betas[i], range(num_qubits))`, which
qiskit broadcasts to one `rx` per qubit. -/
def qaoa_layer (graph : Graph) (num_qubits : Nat) (gamma beta : ℚ) : List Gate :=
  (graph.edges.map (cost_block gamma)).flatten
    ++ [Gate.barrier]
    ++ (List.range num_qubits).map (Gate.rx beta)

/-- `Build_QAOA(graph, gammas, betas, layers)` from the notebook:
`num_qubits = len(graph['nodes'])` qubits, a Hadamard on each,
`layers` repetitions of the cost/mixer layer, and a measurement of every
qubit into its own classical bit.  `gammas[i]`/`betas[i]` (an `IndexError`
in Python when out of range) are modelled with default `0`; every theorem
about this function assumes the lists are long enough. -/
def Build_QAOA (graph : Graph) (gammas betas : List ℚ) (layers : Nat) :
    List Gate :=
  let num_qubits := graph.nodes.length
  ((List.range num_qubits).map Gate.h)
    ++ ((List.range layers).map
          (fun i => qaoa_layer graph num_qubits (gammas.getD i 0) (betas.getD i 0))).flatten
    ++ ((List.range num_qubits).map (fun q => Gate.measure q q))

/-!  Optimizer driver embedding.  The external pieces (`transpile`,
`backend.run(...).result().get_counts()`, `scipy.optimize.minimize`) are
modelled as an oracle `backend : List Gate → Nat → Counts` taking the
circuit and the shot count.  The global trace `expval_list` is threaded
explicitly as a `List ℚ` state. -/

/-- `expval_list.clear()` executed at the start of `get_QAOA_func`:
whatever the trace held before, it is empty afterwards. -/
def expval_list_clear (_old : List ℚ) : List ℚ := []

/-- One call of the inner objective `run_QAOA(angles)` defined by
`get_QAOA_func`: split the concatenated angle list into `gammas =
angles[:layers]` and `betas = angles[layers:]`, build the circuit, run it
through the backend oracle, compute the expectation value, append it to the
trace and return it.  When `get_expval` raises (zero total shots) the
exception propagates: nothing is appended and no value is returned. -/
def run_QAOA (backend : List Gate → Nat → Counts) (graph : Graph)
    (shots layers : Nat) (angles : List ℚ) (trace : List ℚ) :
    List ℚ × Option ℚ :=
  let gammas := angles.take layers
  let betas := angles.drop layers
  let qc := Build_QAOA graph gammas betas layers
  let counts := backend qc shots
  match get_expval counts graph with
  | some expval => (trace ++ [expval], some expval)
  | none => (trace, none)

/-- The trace after a sequence of objective-function evaluations at the
parameter vectors `xs`, starting from trace state `trace`. -/
def run_QAOA_iter (backend : List Gate → Nat → Counts) (graph : Graph)
    (shots layers : Nat) (xs : List (List ℚ)) (trace : List ℚ) : List ℚ :=
  match xs with
  | [] => trace
  | x :: rest =>
      run_QAOA_iter backend graph shots layers rest
        (run_QAOA backend graph shots layers x trace).1

/-- The scalar a single evaluation at `angles` returns (independent of the
trace state), with `0` standing in for the never-taken error case. -/
def run_QAOA_value (backend : List Gate → Nat → Counts) (graph : Graph)
    (shots layers : Nat) (angles : List ℚ) : ℚ :=
  ((run_QAOA backend graph shots layers angles []).2).getD 0

/-- `gamma_0 = 3.147` from `optimize_QAOA`. -/
def gamma_0 : ℚ := 3147/1000

/-- `beta_0 = 3.147` from `optimize_QAOA`. -/
def beta_0 : ℚ := 3147/1000

/-- The initial guess `x0 = [gamma_0 for i in range(layers)] + [beta_0 for i
in range(layers)]` built by `optimize_QAOA`. -/
def x0 (layers : Nat) : List ℚ :=
  List.replicate layers gamma_0 ++ List.replicate layers beta_0

/-- The bit-order reversal applied during solution extraction
(`most_probable_solution = most_probable_solution[::-1]`), the same
operation `maxcut_cost` applies internally. -/
def extract_solution (bits : List Bool) : List Bool := reverse_bits bits

/-- The edge-sum of cut contributions of a bit assignment taken in declared
vertex order, with no reversal applied: the cost `maxcut_cost` computes
after it has undone the backend's bit order. -/
def direct_cut_cost (bits : List Bool) (graph : Graph) : Int :=
  (graph.edges.map (cutTerm bits)).sum

/-- The concrete 4-cycle instance built in the notebook:
`nodes = [0, 1, 2, 3]`, `edges = [(0,1), (1,2), (2,3), (0,3)]`. -/
def example_graph : Graph :=
  { nodes := [0, 1, 2, 3], edges := [(0, 1), (1, 2), (2, 3), (0, 3)] }

-- Helper lemmas about the cost function.

theorem cutTerm_neg_one_le (bits : List Bool) (e : Nat × Nat) :
    -1 ≤ cutTerm bits e := by
  unfold cutTerm; split <;> simp

theorem cutTerm_nonpos (bits : List Bool) (e : Nat × Nat) :
    cutTerm bits e ≤ 0 := by
  unfold cutTerm; split <;> simp

theorem sum_cutTerm_eq_neg_countP (bits : List Bool) (es : List (Nat × Nat)) :
    (es.map (cutTerm bits)).sum
      = -((es.countP (fun e => bits.getD e.1 false ≠ bits.getD e.2 false) : Int)) := by
  induction es with
  | nil => simp
  | cons e rest ih =>
      rw [List.map_cons, List.sum_cons, List.countP_cons, ih]
      rcases Decidable.em (bits.getD e.1 false = bits.getD e.2 false) with h | h
      · have hz : cutTerm bits e = 0 := by
          unfold cutTerm; rw [if_neg]; simpa using h
        have h' : decide (bits.getD e.1 false ≠ bits.getD e.2 false) = false := by
          simp only [decide_not, Bool.not_eq_false', decide_eq_true_eq]; exact h
        rw [hz]
        rw [h']
        simp
      · have ho : cutTerm bits e = -1 := by
          unfold cutTerm; rw [if_pos]; simpa using h
        have h' : decide (bits.getD e.1 false ≠ bits.getD e.2 false) = true := by
          simp only [decide_not, Bool.not_eq_true', decide_eq_false_iff_not]; exact h
        rw [ho]
        rw [h']
        simp only [if_pos]
        push_cast
        ring

theorem getD_reverse_of_const (bits : List Bool) (c : Bool)
    (hconst : ∀ b ∈ bits, b = c) (i : Nat) (hi : i < bits.length) :
    (reverse_bits bits).getD i false = c := by
  unfold reverse_bits
  have hi' : i < bits.reverse.length := by simpa using hi
  rw [List.getD_eq_getElem _ _ hi']
  exact hconst _ (List.mem_reverse.mp (List.getElem_mem hi'))

theorem getD_reverse_map_not (bits : List Bool) (i : Nat) (hi : i < bits.length) :
    (reverse_bits (bits.map not)).getD i false
      = not ((reverse_bits bits).getD i false) := by
  unfold reverse_bits
  have h1 : i < (bits.map not).reverse.length := by simpa using hi
  have h2 : i < bits.reverse.length := by simpa using hi
  rw [List.getD_eq_getElem _ _ h1, List.getD_eq_getElem _ _ h2]
  simp [List.getElem_reverse]

theorem maxcut_cost_lower_bound (bitstring : List Bool) (graph : Graph) :
    -(graph.edges.length : Int) ≤ maxcut_cost bitstring graph := by
  rw [maxcut_cost_eq_sum]
  have h := List.sum_le_sum (l := graph.edges)
    (f := fun _ => (-1 : Int)) (g := cutTerm (reverse_bits bitstring))
    (fun e _ => cutTerm_neg_one_le (reverse_bits bitstring) e)
  calc -(graph.edges.length : Int)
      = (graph.edges.map (fun _ => (-1 : Int))).sum := by
        simp [List.map_const', List.sum_replicate]
    _ ≤ (graph.edges.map (cutTerm (reverse_bits bitstring))).sum := h

theorem maxcut_cost_nonpos (bitstring : List Bool) (graph : Graph) :
    maxcut_cost bitstring graph ≤ 0 := by
  rw [maxcut_cost_eq_sum]
  have h := List.sum_le_sum (l := graph.edges)
    (f := cutTerm (reverse_bits bitstring)) (g := fun _ => (0 : Int))
    (fun e _ => cutTerm_nonpos (reverse_bits bitstring) e)
  calc (graph.edges.map (cutTerm (reverse_bits bitstring))).sum
      ≤ (graph.edges.map (fun _ => (0 : Int))).sum := h
    _ = 0 := by simp [List.map_const', List.sum_replicate]

theorem maxcut_cost_flip_invariant (bits : List Bool) (graph : Graph)
    (hrange : ∀ e ∈ graph.edges, e.1 < bits.length ∧ e.2 < bits.length) :
    maxcut_cost (bits.map not) graph = maxcut_cost bits graph := by
  rw [maxcut_cost_eq_sum, maxcut_cost_eq_sum]
  congr 1
  apply List.map_congr_left
  intro e he
  rcases hrange e he with ⟨h1, h2⟩
  unfold cutTerm
  rw [getD_reverse_map_not _ _ h1, getD_reverse_map_not _ _ h2]
  by_cases h : (reverse_bits bits).getD e.1 false = (reverse_bits bits).getD e.2 false
  · simp [h]
  · have hne : (reverse_bits bits).getD e.1 false ≠ (reverse_bits bits).getD e.2 false := h
    simp [hne, Bool.not_eq_not]

-- Claim theorems for the cost function.

/-- Claim C2: for every graph and every bit-string whose length covers all
edge-endpoint indices, `maxcut_cost` first reverses the bit-string and then
returns the sum over all graph edges of `-1` when the two endpoint bits of
the reversed string differ and `0` when they are equal, i.e. it equals the
negated number of cut edges under the reversed-bit-order convention. -/
theorem C2_maxcut_cost_neg_cut_count (bitstring : List Bool) (graph : Graph)
    (_hrange : ∀ e ∈ graph.edges, e.1 < bitstring.length ∧ e.2 < bitstring.length) :
    maxcut_cost bitstring graph
        = (graph.edges.map (fun e =>
            if (reverse_bits bitstring).getD e.1 false
                 ≠ (reverse_bits bitstring).getD e.2 false then -1 else 0)).sum
    ∧ maxcut_cost bitstring graph
        = -((cut_edges (reverse_bits bitstring) graph : Int)) := by
  refine ⟨maxcut_cost_eq_sum bitstring graph, ?_⟩
  rw [maxcut_cost_eq_sum, cut_edges, sum_cutTerm_eq_neg_countP]

/-- Claim C2 witness: the theorem applied to the notebook's 4-cycle and the
bit-string `0101`. -/
theorem C2_witness :
    (∀ e ∈ example_graph.edges,
        e.1 < ([false, true, false, true] : List Bool).length
          ∧ e.2 < ([false, true, false, true] : List Bool).length)
    ∧ (maxcut_cost [false, true, false, true] example_graph
        = (example_graph.edges.map (fun e =>
            if (reverse_bits [false, true, false, true]).getD e.1 false
                 ≠ (reverse_bits [false, true, false, true]).getD e.2 false
              then -1 else 0)).sum
      ∧ maxcut_cost [false, true, false, true] example_graph
        = -((cut_edges (reverse_bits [false, true, false, true]) example_graph : Int))) :=
  ⟨by decide, C2_maxcut_cost_neg_cut_count [false, true, false, true] example_graph (by decide)⟩

/-- Claim C7: for any graph and any bit assignment in which every bit has
the same value (all zeros or all ones), `maxcut_cost` evaluates to 0. -/
theorem C7_maxcut_cost_const_zero (bitstring : List Bool) (graph : Graph) (c : Bool)
    (hconst : ∀ b ∈ bitstring, b = c)
    (hrange : ∀ e ∈ graph.edges, e.1 < bitstring.length ∧ e.2 < bitstring.length) :
    maxcut_cost bitstring graph = 0 := by
  rw [maxcut_cost_eq_sum]
  apply List.sum_eq_zero
  intro x hx
  rcases List.mem_map.mp hx with ⟨e, he, rfl⟩
  rcases hrange e he with ⟨h1, h2⟩
  unfold cutTerm
  rw [getD_reverse_of_const bitstring c hconst _ h1,
    getD_reverse_of_const bitstring c hconst _ h2]
  simp

/-- Claim C7 witness: the all-ones assignment on the notebook's 4-cycle. -/
theorem C7_witness :
    (∀ b ∈ ([true, true, true, true] : List Bool), b = true)
    ∧ (∀ e ∈ example_graph.edges,
        e.1 < ([true, true, true, true] : List Bool).length
          ∧ e.2 < ([true, true, true, true] : List Bool).length)
    ∧ maxcut_cost [true, true, true, true] example_graph = 0 :=
  ⟨by decide, by decide,
    C7_maxcut_cost_const_zero [true, true, true, true] example_graph true
      (by decide) (by decide)⟩

/-- Claim C8: on the 4-cycle `{(0,1),(1,2),(2,3),(0,3)}` the alternating
assignment 0/1/0/1 attains the minimum cost `-4`, its bit-complement attains
the same value, and in general the cost is invariant under a global bit flip
(whenever every edge endpoint is in range). -/
theorem C8_alternating_minimum_and_flip :
    maxcut_cost [false, true, false, true] example_graph = -4
    ∧ maxcut_cost ([false, true, false, true].map not) example_graph = -4
    ∧ (∀ bits : List Bool, -4 ≤ maxcut_cost bits example_graph)
    ∧ ∀ (bits : List Bool) (graph : Graph),
        (∀ e ∈ graph.edges, e.1 < bits.length ∧ e.2 < bits.length) →
        maxcut_cost (bits.map not) graph = maxcut_cost bits graph := by
  refine ⟨by decide, by decide, ?_, fun bits graph h => maxcut_cost_flip_invariant bits graph h⟩
  intro bits
  have h := maxcut_cost_lower_bound bits example_graph
  simpa using h

/-- Claim C8 witness: the flip-invariance component applied to the
alternating assignment on the 4-cycle. -/
theorem C8_witness :
    (∀ e ∈ example_graph.edges,
        e.1 < ([false, true, false, true] : List Bool).length
          ∧ e.2 < ([false, true, false, true] : List Bool).length)
    ∧ maxcut_cost ([false, true, false, true].map not) example_graph
        = maxcut_cost [false, true, false, true] example_graph :=
  ⟨by decide,
    C8_alternating_minimum_and_flip.2.2.2 [false, true, false, true] example_graph (by decide)⟩

/-- Claim C9: bit-order reversal is an involution: reversing twice is the
identity, both for the raw operation and for the solution-extraction step;
consequently the reversal inside `maxcut_cost` and the reversal applied
during solution extraction round-trip: the cost of a backend-reported
string equals the unreversed edge-sum cost of the extracted solution, and
the cost of an extracted solution equals the unreversed edge-sum cost of
the original string. -/
theorem C9_reversal_involution :
    (∀ s : List Bool, reverse_bits (reverse_bits s) = s)
    ∧ (∀ s : List Bool, extract_solution (extract_solution s) = s)
    ∧ (∀ (s : List Bool) (graph : Graph),
        maxcut_cost s graph = direct_cut_cost (extract_solution s) graph)
    ∧ (∀ (s : List Bool) (graph : Graph),
        maxcut_cost (extract_solution s) graph = direct_cut_cost s graph) := by
  refine ⟨fun s => by simp [reverse_bits], fun s => by simp [extract_solution, reverse_bits], ?_, ?_⟩
  · intro s graph
    rw [maxcut_cost_eq_sum]
    rfl
  · intro s graph
    rw [maxcut_cost_eq_sum]
    unfold direct_cut_cost extract_solution
    rw [show reverse_bits (reverse_bits s) = s from by simp [reverse_bits]]

/-- Claim C10: for every graph and every bit-string whose length covers all
edge-endpoint indices, `maxcut_cost` returns an integer between minus the
number of edges and 0. -/
theorem C10_maxcut_cost_bounds (bitstring : List Bool) (graph : Graph)
    (_hrange : ∀ e ∈ graph.edges, e.1 < bitstring.length ∧ e.2 < bitstring.length) :
    -(graph.edges.length : Int) ≤ maxcut_cost bitstring graph
    ∧ maxcut_cost bitstring graph ≤ 0 :=
  ⟨maxcut_cost_lower_bound bitstring graph, maxcut_cost_nonpos bitstring graph⟩

/-- Claim C10 witness: the bounds applied to the alternating assignment on
the 4-cycle. -/
theorem C10_witness :
    (∀ e ∈ example_graph.edges,
        e.1 < ([false, true, false, true] : List Bool).length
          ∧ e.2 < ([false, true, false, true] : List Bool).length)
    ∧ (-(example_graph.edges.length : Int)
          ≤ maxcut_cost [false, true, false, true] example_graph
      ∧ maxcut_cost [false, true, false, true] example_graph ≤ 0) :=
  ⟨by decide, C10_maxcut_cost_bounds [false, true, false, true] example_graph (by decide)⟩


-- Claim theorems for the expectation-value reduction.

/-- Claim C1: when the total trial count is zero (empty counts mapping, or
all occurrence counts summing to zero), `get_expval` does not produce a
numeric value: the unchecked `cost/total_shots` raises `ZeroDivisionError`
in Python (modelled by `none`), so the evaluation fails fast instead of
silently returning NaN. -/
theorem C1_zero_total_shots_fails (counts : Counts) (graph : Graph)
    (h : total_shots counts = 0) :
    get_expval counts graph = none := by
  rw [get_expval_eq, if_pos h]

/-- Claim C1 witness: the empty counts mapping on the notebook's 4-cycle. -/
theorem C1_witness :
    total_shots [] = 0 ∧ get_expval [] example_graph = none :=
  ⟨rfl, C1_zero_total_shots_fails [] example_graph rfl⟩

theorem cost_sum_bounds (graph : Graph) (lo hi : ℚ) :
    ∀ counts : Counts,
      (∀ p ∈ counts, lo ≤ (maxcut_cost p.1 graph : ℚ)
          ∧ (maxcut_cost p.1 graph : ℚ) ≤ hi) →
      lo * (total_shots counts : ℚ) ≤ (cost_sum counts graph : ℚ)
        ∧ (cost_sum counts graph : ℚ) ≤ hi * (total_shots counts : ℚ) := by
  intro counts
  induction counts with
  | nil => intro _; simp [total_shots, cost_sum]
  | cons p rest ih =>
      intro hb
      have hp := hb p (List.mem_cons_self p rest)
      have hrest := ih (fun q hq => hb q (List.mem_cons_of_mem p hq))
      have hc : (0 : ℚ) ≤ (p.2 : ℚ) := by positivity
      have hsum : (cost_sum (p :: rest) graph : ℚ)
          = (maxcut_cost p.1 graph : ℚ) * (p.2 : ℚ) + (cost_sum rest graph : ℚ) := by
        unfold cost_sum
        push_cast [List.map_cons, List.sum_cons]
        ring
      have htot : (total_shots (p :: rest) : ℚ) = (p.2 : ℚ) + (total_shots rest : ℚ) := by
        unfold total_shots
        push_cast [List.map_cons, List.sum_cons]
        ring
      rw [hsum, htot]
      constructor
      · have h1 : lo * (p.2 : ℚ) ≤ (maxcut_cost p.1 graph : ℚ) * (p.2 : ℚ) :=
          mul_le_mul_of_nonneg_right hp.1 hc
        nlinarith [hrest.1]
      · have h2 : (maxcut_cost p.1 graph : ℚ) * (p.2 : ℚ) ≤ hi * (p.2 : ℚ) :=
          mul_le_mul_of_nonneg_right hp.2 hc
        nlinarith [hrest.2]

theorem total_shots_pos (counts : Counts) (hne : counts ≠ [])
    (hpos : ∀ p ∈ counts, 0 < p.2) : 0 < total_shots counts := by
  cases counts with
  | nil => exact absurd rfl hne
  | cons p rest =>
      have hp := hpos p (List.mem_cons_self p rest)
      unfold total_shots
      rw [List.map_cons, List.sum_cons]
      omega

/-- Claim C3: for every non-empty counts mapping with positive occurrence
counts, `get_expval` returns the count-weighted average of `maxcut_cost`
over the observed bit-strings (weighted cost sum divided by total count),
and that value lies between any lower and upper bound on the per-bit-string
cost — in particular between the minimum and maximum cost achievable for
the graph. -/
theorem C3_expval_weighted_average (counts : Counts) (graph : Graph)
    (hne : counts ≠ []) (hpos : ∀ p ∈ counts, 0 < p.2) :
    get_expval counts graph
        = some ((cost_sum counts graph : ℚ) / (total_shots counts : ℚ))
    ∧ ∀ lo hi : ℚ,
        (∀ p ∈ counts, lo ≤ (maxcut_cost p.1 graph : ℚ)
            ∧ (maxcut_cost p.1 graph : ℚ) ≤ hi) →
        lo ≤ (cost_sum counts graph : ℚ) / (total_shots counts : ℚ)
          ∧ (cost_sum counts graph : ℚ) / (total_shots counts : ℚ) ≤ hi := by
  have htot : 0 < total_shots counts := total_shots_pos counts hne hpos
  have htotQ : (0 : ℚ) < (total_shots counts : ℚ) := by exact_mod_cast htot
  constructor
  · rw [get_expval_eq, if_neg (by omega)]
  · intro lo hi hb
    have hbounds := cost_sum_bounds graph lo hi counts hb
    constructor
    · rw [le_div_iff₀ htotQ]
      exact hbounds.1
    · rw [div_le_iff₀ htotQ]
      exact hbounds.2

/-- Claim C3 witness: a two-outcome counts mapping on the notebook's
4-cycle, with the universal bounds `-4 ≤ cost ≤ 0` instantiated. -/
theorem C3_witness :
    (([([false, true, false, true], 2), ([false, false, false, false], 2)] : Counts) ≠ [])
    ∧ (∀ p ∈ ([([false, true, false, true], 2),
          ([false, false, false, false], 2)] : Counts), 0 < p.2)
    ∧ (get_expval [([false, true, false, true], 2), ([false, false, false, false], 2)]
          example_graph
        = some ((cost_sum [([false, true, false, true], 2),
              ([false, false, false, false], 2)] example_graph : ℚ)
            / (total_shots [([false, true, false, true], 2),
              ([false, false, false, false], 2)] : ℚ))) :=
  ⟨by decide, by decide,
    (C3_expval_weighted_average
      [([false, true, false, true], 2), ([false, false, false, false], 2)]
      example_graph (by decide) (by decide)).1⟩

-- Claim theorems for the circuit builder and the optimizer driver.

theorem range_map_getD_eq_zip_map {α β γ : Type} (f : α → β → γ) (xs : List α) (ys : List β)
    (L : Nat) (hx : L ≤ xs.length) (hy : L ≤ ys.length) (dx : α) (dy : β) :
    (List.range L).map (fun i => f (xs.getD i dx) (ys.getD i dy))
      = ((xs.take L).zip (ys.take L)).map (fun p => f p.1 p.2) := by
  apply List.ext_getElem
  · simp
    omega
  · intro i h1 h2
    have hix : i < xs.length := by simp at h1; omega
    have hiy : i < ys.length := by simp at h1; omega
    simp [List.getElem_zip, List.getElem?_eq_getElem hix, List.getElem?_eq_getElem hiy]

/-- Modelled on the claim's wording, for comparison with `Build_QAOA`: one
qubit per graph vertex; a Hadamard on every qubit; for each of the first
`layers` pairs of angles, one cost-interaction block per graph edge at that
layer's cost angle, then one mixer X-rotation per vertex at that layer's
mixer angle; ending with a measurement of every qubit. -/
def circuit_spec (graph : Graph) (gammas betas : List ℚ) (layers : Nat) : List Gate :=
  let num_qubits := graph.nodes.length
  ((List.range num_qubits).map Gate.h)
    ++ (((gammas.take layers).zip (betas.take layers)).map
          (fun gb => qaoa_layer graph num_qubits gb.1 gb.2)).flatten
    ++ ((List.range num_qubits).map (fun q => Gate.measure q q))

/-- Claim C4: for angle lists of length at least `layers`, `Build_QAOA`
produces exactly the claimed circuit — one qubit per vertex, Hadamards on
all qubits, `layers` repetitions of (cost block per edge at that layer's
cost angle, mixer X-rotation per vertex at that layer's mixer angle), and a
final measurement of every qubit — and it is deterministic: identical
inputs yield an identical circuit description. -/
theorem C4_build_qaoa_structure (graph : Graph) (gammas betas : List ℚ) (layers : Nat)
    (hg : layers ≤ gammas.length) (hb : layers ≤ betas.length) :
    Build_QAOA graph gammas betas layers = circuit_spec graph gammas betas layers
    ∧ ∀ (graph' : Graph) (gammas' betas' : List ℚ) (layers' : Nat),
        graph = graph' → gammas = gammas' → betas = betas' → layers = layers' →
        Build_QAOA graph gammas betas layers
          = Build_QAOA graph' gammas' betas' layers' := by
  constructor
  · simp only [Build_QAOA, circuit_spec]
    rw [range_map_getD_eq_zip_map
      (fun g b => qaoa_layer graph graph.nodes.length g b) gammas betas layers hg hb 0 0]
  · intro graph' gammas' betas' layers' h1 h2 h3 h4
    rw [h1, h2, h3, h4]

/-- Claim C4 witness: the notebook's first instantiation
`Build_QAOA(graph, gammas=[1.0], betas=[2.0], layers=1)`. -/
theorem C4_witness :
    1 ≤ ([1] : List ℚ).length ∧ 1 ≤ ([2] : List ℚ).length
    ∧ Build_QAOA example_graph [1] [2] 1 = circuit_spec example_graph [1] [2] 1 :=
  ⟨by simp, by simp,
    (C4_build_qaoa_structure example_graph [1] [2] 1 (by simp) (by simp)).1⟩

/-- A fixed stand-in for the external simulation backend, used only to
instantiate theorems at concrete inputs: it returns the same counts
mapping for every circuit and shot count. -/
def test_backend : List Gate → Nat → Counts :=
  fun _ _ => [([false, false, false, false], 1)]

/-- Claim C5: the objective built by `get_QAOA_func` reads its parameter
vector as the concatenation of the `layers` cost angles followed by the
mixer angles — on input `gammas ++ betas` with `gammas` of length
`layers` it builds `Build_QAOA graph gammas betas layers` — and the initial
guess `x0` built by `optimize_QAOA` is `layers` copies of `gamma_0`
followed by `layers` copies of `beta_0`, of length exactly `2 * layers`. -/
theorem C5_parameter_vector_layout (backend : List Gate → Nat → Counts)
    (graph : Graph) (shots layers : Nat) (gammas betas : List ℚ) (trace : List ℚ)
    (hg : gammas.length = layers) :
    (x0 layers).length = 2 * layers
    ∧ (x0 layers).take layers = List.replicate layers gamma_0
    ∧ (x0 layers).drop layers = List.replicate layers beta_0
    ∧ run_QAOA backend graph shots layers (gammas ++ betas) trace
        = (match get_expval (backend (Build_QAOA graph gammas betas layers) shots) graph with
           | some e => (trace ++ [e], some e)
           | none => (trace, none)) := by
  refine ⟨?_, ?_, ?_, ?_⟩
  · simp [x0]
    ring
  · rw [x0, List.take_left' (by simp)]
  · rw [x0, List.drop_left' (by simp)]
  · unfold run_QAOA
    rw [List.take_left' hg, List.drop_left' hg]

/-- Claim C5 witness: the layout facts at `layers = 1` with the notebook's
first angle choice `gammas = [1.0]`, `betas = [2.0]`. -/
theorem C5_witness :
    ([1] : List ℚ).length = 1
    ∧ ((x0 1).length = 2 * 1
      ∧ (x0 1).take 1 = List.replicate 1 gamma_0
      ∧ (x0 1).drop 1 = List.replicate 1 beta_0
      ∧ run_QAOA test_backend example_graph 1000 1 ([1] ++ [2]) []
          = (match get_expval (test_backend (Build_QAOA example_graph [1] [2] 1) 1000)
                example_graph with
             | some e => ([] ++ [e], some e)
             | none => ([], none))) :=
  ⟨rfl, C5_parameter_vector_layout test_backend example_graph 1000 1 [1] [2] [] rfl⟩

/-- Claim C6: the optimization trace is cleared at the start of every
run (`expval_list.clear()` in `get_QAOA_func` empties it regardless of its
previous contents); during a run it is modified only by appending: every
objective-function evaluation appends exactly the one scalar it returns, so
after a sequence of evaluations the trace holds exactly the returned values
in call order, and a run started from the cleared trace leaves exactly its
own values.  The backend is assumed to return a nonzero total count (the
zero-total case raises instead, claim C1). -/
theorem C6_trace_append_only (backend : List Gate → Nat → Counts) (graph : Graph)
    (shots layers : Nat)
    (hb : ∀ qc : List Gate, total_shots (backend qc shots) ≠ 0) :
    (∀ old : List ℚ, expval_list_clear old = [])
    ∧ (∀ (angles : List ℚ) (trace : List ℚ),
        run_QAOA backend graph shots layers angles trace
          = (trace ++ [run_QAOA_value backend graph shots layers angles],
             some (run_QAOA_value backend graph shots layers angles)))
    ∧ (∀ (xs : List (List ℚ)) (trace : List ℚ),
        run_QAOA_iter backend graph shots layers xs trace
          = trace ++ xs.map (run_QAOA_value backend graph shots layers))
    ∧ (∀ (xs : List (List ℚ)) (old : List ℚ),
        run_QAOA_iter backend graph shots layers xs (expval_list_clear old)
          = xs.map (run_QAOA_value backend graph shots layers)) := by
  have hval : ∀ angles : List ℚ,
      get_expval (backend (Build_QAOA graph (angles.take layers)
          (angles.drop layers) layers) shots) graph
        = some (run_QAOA_value backend graph shots layers angles) := by
    intro angles
    have h := hb (Build_QAOA graph (angles.take layers) (angles.drop layers) layers)
    rw [get_expval_eq, if_neg h]
    unfold run_QAOA_value
    simp only [run_QAOA]
    rw [get_expval_eq, if_neg h]
    rfl
  have hstep : ∀ (angles : List ℚ) (trace : List ℚ),
      run_QAOA backend graph shots layers angles trace
        = (trace ++ [run_QAOA_value backend graph shots layers angles],
           some (run_QAOA_value backend graph shots layers angles)) := by
    intro angles trace
    simp only [run_QAOA]
    rw [hval angles]
  have hiter : ∀ (xs : List (List ℚ)) (trace : List ℚ),
      run_QAOA_iter backend graph shots layers xs trace
        = trace ++ xs.map (run_QAOA_value backend graph shots layers) := by
    intro xs
    induction xs with
    | nil => intro trace; simp [run_QAOA_iter]
    | cons x rest ih =>
        intro trace
        simp only [run_QAOA_iter]
        rw [hstep x trace]
        rw [ih]
        simp [List.append_assoc]
  exact ⟨fun _ => rfl, hstep, hiter,
    fun xs old => by rw [hiter xs (expval_list_clear old)]; rfl⟩

/-- Claim C6 witness: two evaluations with the stand-in backend, starting
from a cleared trace, leave exactly the two returned values in order. -/
theorem C6_witness :
    (∀ qc : List Gate, total_shots (test_backend qc 1000) ≠ 0)
    ∧ run_QAOA_iter test_backend example_graph 1000 1 [[1, 2], [3, 4]]
          (expval_list_clear [7])
        = [[1, 2], [3, 4]].map (run_QAOA_value test_backend example_graph 1000 1) :=
  ⟨fun qc => by simp [test_backend, total_shots],
    (C6_trace_append_only test_backend example_graph 1000 1
      (fun qc => by simp [test_backend, total_shots])).2.2.2 [[1, 2], [3, 4]] [7]⟩
